import Mathlib

/-!
Verification development for the `validate_arguments` decorator
(`src/pydantic/decorator.py`).  The decorator wraps a callable: at wrap time it
inspects the callable's signature and builds a validating model; at call time it
maps positional/keyword arguments into a values map (`build_values`), validates
them (`model(**values)`), and reconstructs the original call (`execute`).

The embedding below follows the source line by line.  The external Schema
Validator (`create_model` / `BaseModel`, which live in `pydantic/main.py` and are
not part of the sources under verification) is modelled from the spec, see
`modelValidate`.  Python's own argument-binding semantics for a direct call to
the wrapped callable (needed to state observational-equality claims) is modelled
by `pythonBind`.
-/

/-- Runtime values flowing through the wrapper: opaque payloads (`base`),
Python `None`, lists (overflow positional storage) and string-keyed dicts
(overflow keyword storage). -/
inductive Val : Type where
  | base : Nat → Val
  | pynone : Val
  | vlist : List Val → Val
  | vdict : List (String × Val) → Val

/-- Python dict assignment `m[k] = v`: replace in place if the key exists,
otherwise append (Python dicts preserve insertion order). -/
def aset {κ β : Type} [DecidableEq κ] : List (κ × β) → κ → β → List (κ × β)
  | [], k, v => [(k, v)]
  | (k0, v0) :: t, k, v => if k0 = k then (k, v) :: t else (k0, v0) :: aset t k v

/-- Python dict lookup `m.get(k)`. -/
def aget {κ β : Type} [DecidableEq κ] : List (κ × β) → κ → Option β
  | [], _ => none
  | (k0, v0) :: t, k => if k0 = k then some v0 else aget t k

/-- Python `k in m`. -/
def akey {κ β : Type} [DecidableEq κ] (m : List (κ × β)) (k : κ) : Bool :=
  (aget m k).isSome

/-- Python `m.pop(k)`: the value and the remaining dict (`none` models the
`KeyError` case). -/
def apop {κ β : Type} [DecidableEq κ] : List (κ × β) → κ → Option (β × List (κ × β))
  | [], _ => none
  | (k0, v0) :: t, k =>
    if k0 = k then some (v0, t)
    else (apop t k).map fun p => (p.1, (k0, v0) :: p.2)

/-- Python `d.update(m)`: entries of `m` overwrite in place or are appended. -/
def aupdate {κ β : Type} [DecidableEq κ] (d m : List (κ × β)) : List (κ × β) :=
  m.foldl (fun acc kv => aset acc kv.1 kv.2) d

/-- The five parameter kinds of `inspect.Parameter`. -/
inductive ParamKind : Type where
  | positionalOnly
  | positionalOrKeyword
  | keywordOnly
  | varPositional
  | varKeyword
deriving DecidableEq

/-- A declared parameter: name, kind, and default (`none` models
`Parameter.empty`, i.e. a required parameter).  Type hints are opaque to the
claims and are not carried. -/
structure Param where
  name : String
  kind : ParamKind
  default : Option Val

/-- Errors of the whole pipeline. -/
inductive Err : Type where
  | setupError
  | posOnlyKeyword (k : String)
  | validationExtra (k : String)
  | validationMissing (k : String)
  | runtimeError
  | userError (n : Nat)
deriving DecidableEq

def ALT_VAR_ARGS : String := "var__args"

def ALT_VAR_KWARGS : String := "var__kwargs"

/-- The mutable state built by the `for` loop in `ValidatedFunction.__init__`
(decorator.py lines 55-83).  `uargs`/`ukwargs` model the attributes
`self._args_field_name` / `self._kwargs_field_name` that lines 76/81 assign to;
note that nothing in the source ever reads them. -/
structure LoopState where
  arg_mapping : List (Nat × String)
  positional_only_args : List String
  fields : List (String × Option Val)
  allows_var_args : Bool
  allows_var_kwargs : Bool
  uargs : Option String
  ukwargs : Option String

def initLoopState : LoopState :=
  { arg_mapping := [], positional_only_args := [], fields := []
    allows_var_args := false, allows_var_kwargs := false
    uargs := none, ukwargs := none }

/-- One iteration of the `__init__` loop at enumerate index `i`
(decorator.py lines 58-83).  Fields store the default (`none` = the `...`
sentinel, i.e. required); variadic fields get default `None` (line 78/83). -/
def processParam (s : LoopState) (i : Nat) (p : Param) : LoopState :=
  match p.kind with
  | .positionalOnly =>
    { s with arg_mapping := s.arg_mapping ++ [(i, p.name)]
             fields := aset s.fields p.name p.default
             positional_only_args :=
               if s.positional_only_args.contains p.name then s.positional_only_args
               else s.positional_only_args ++ [p.name] }
  | .positionalOrKeyword =>
    { s with arg_mapping := s.arg_mapping ++ [(i, p.name)]
             fields := aset s.fields p.name p.default }
  | .keywordOnly =>
    { s with fields := aset s.fields p.name p.default }
  | .varPositional =>
    { s with uargs := some p.name
             allows_var_args := true
             fields := aset s.fields p.name (some .pynone) }
  | .varKeyword =>
    { s with ukwargs := some p.name
             allows_var_kwargs := true
             fields := aset s.fields p.name (some .pynone) }

/-- The `for i, (name, p) in enumerate(parameters.items())` loop. -/
def loopParams : Nat → List Param → LoopState → LoopState
  | _, [], s => s
  | i, p :: t, s => loopParams (i + 1) t (processParam s i p)

/-- The schema state held by a `ValidatedFunction` instance after `__init__`. -/
structure ValidatedFunction where
  arg_mapping : List (Nat × String)
  args_field_name : String
  kwargs_field_name : String
  positional_only_args : List String
  fields : List (String × Option Val)
  uargs : Option String
  ukwargs : Option String

/-- `ValidatedFunction.__init__` after the reserved-name check: run the loop,
then apply the clash-avoiding renames of lines 85-91.  `args_field_name` starts
as `"args"` (line 43) and because lines 76/81 assign the declared variadic
names to `self._args_field_name`/`self._kwargs_field_name` (underscored, never
read), it is still `"args"`/`"kwargs"` when the rename check runs. -/
def mkVF (params : List Param) : ValidatedFunction :=
  let s := loopParams 0 params initLoopState
  { arg_mapping := s.arg_mapping
    args_field_name :=
      if !s.allows_var_args && akey s.fields "args" then ALT_VAR_ARGS else "args"
    kwargs_field_name :=
      if !s.allows_var_kwargs && akey s.fields "kwargs" then ALT_VAR_KWARGS else "kwargs"
    positional_only_args := s.positional_only_args
    fields := s.fields
    uargs := s.uargs
    ukwargs := s.ukwargs }

/-- `ValidatedFunction.__init__` (decorator.py lines 38-93): the reserved-name
check of lines 49-53 runs before the loop and before the model is created. -/
def vfInit (params : List Param) : Except Err ValidatedFunction :=
  if params.any (fun p => p.name == ALT_VAR_ARGS || p.name == ALT_VAR_KWARGS) then
    .error .setupError
  else
    .ok (mkVF params)

/-- Result of `build_values`. -/
structure BoundValues where
  values : List (String × Val)
  has_var_args : Bool
  has_var_kwargs : Bool

/-- The positional walk of `build_values` (decorator.py lines 104-117):
mapped indices assign to the mapped name; the first unmapped index sends that
argument and all remaining ones to `args_field_name` as a list. -/
def buildPos (vf : ValidatedFunction) : Nat → List Val → List (String × Val) →
    List (String × Val) × Bool
  | _, [], values => (values, false)
  | i, a :: t, values =>
    match aget vf.arg_mapping i with
    | some arg_name => buildPos vf (i + 1) t (aset values arg_name a)
    | none => (aset values vf.args_field_name (.vlist (a :: t)), true)

/-- The keyword walk of `build_values` (decorator.py lines 119-126): keys that
are model fields are assigned directly (raising for positional-only targets,
line 123); the rest accumulate in `var_kwargs`. -/
def buildKw (vf : ValidatedFunction) : List (String × Val) → List (String × Val) →
    List (String × Val) → Except Err (List (String × Val) × List (String × Val))
  | [], values, var_kwargs => .ok (values, var_kwargs)
  | (k, v) :: t, values, var_kwargs =>
    if akey vf.fields k then
      if vf.positional_only_args.contains k then .error (.posOnlyKeyword k)
      else buildKw vf t (aset values k v) var_kwargs
    else buildKw vf t values (aset var_kwargs k v)

/-- `ValidatedFunction.build_values` (decorator.py lines 100-130). -/
def build_values (vf : ValidatedFunction) (args : List Val) (kwargs : List (String × Val)) :
    Except Err BoundValues :=
  let pr := buildPos vf 0 args []
  match buildKw vf kwargs pr.1 [] with
  | .error e => .error e
  | .ok (values, var_kwargs) =>
    if var_kwargs.isEmpty then .ok ⟨values, pr.2, false⟩
    else .ok ⟨aset values vf.kwargs_field_name (.vdict var_kwargs), pr.2, true⟩

/-- Modelled from the spec: the external Schema Validator (`create_model` and
`BaseModel.__init__` / `_iter` / `__fields_set__` live in `pydantic/main.py`,
which is not among the sources).  Per spec section 4.3/6 it either fails with a
`ValidationError` or exposes the effective value per field and the subset of
explicitly-supplied fields, in declaration order; `DecoratorModelConfig` sets
`extra = Extra.forbid`, so a values key that is not a declared field fails
validation; a required field (sentinel default) that is absent fails
validation; type coercion is opaque here and modelled as the identity.  The
returned list is `{k: v for k, v in m._iter() if k in m.__fields_set__}` from
`execute` (line 133): the explicitly-set fields in field declaration order. -/
def modelValidate (fields : List (String × Option Val)) (values : List (String × Val)) :
    Except Err (List (String × Val)) :=
  match values.find? (fun kv => !akey fields kv.1) with
  | some kv => .error (.validationExtra kv.1)
  | none =>
    match fields.find? (fun fl => fl.2.isNone && !akey values fl.1) with
    | some fl => .error (.validationMissing fl.1)
    | none => .ok (fields.filterMap fun fl => (aget values fl.1).map fun v => (fl.1, v))

/-- The positional list and keyword map with which the wrapped callable is
finally invoked. -/
structure Call where
  args : List Val
  kwargs : List (String × Val)

/-- The `has_var_args` walk of `execute` (decorator.py lines 137-149): values
before the `args_field_name` entry are passed positionally, the entry itself is
expanded into the positional list, everything after it is passed by keyword.
`args_ += value` needs a list value; anything else is a runtime `TypeError`. -/
def execWalk (afn : String) : List (String × Val) → Bool → List Val → List (String × Val) →
    Except Err (List Val × List (String × Val))
  | [], _, args_, kwargs => .ok (args_, kwargs)
  | (name, value) :: t, in_kwargs, args_, kwargs =>
    if in_kwargs then execWalk afn t true args_ (aset kwargs name value)
    else if name = afn then
      match value with
      | .vlist l => execWalk afn t true (args_ ++ l) kwargs
      | _ => .error .runtimeError
    else execWalk afn t false (args_ ++ [value]) kwargs

/-- `ValidatedFunction.execute` (decorator.py lines 132-160), given the
explicitly-set field values `d0` in declaration order.  `d.pop` on a missing
key or a non-dict value is a runtime error (`KeyError`/`TypeError`). -/
def execute (vf : ValidatedFunction) (d0 : List (String × Val))
    (has_var_args has_var_kwargs : Bool) : Except Err Call :=
  let dE : Except Err (List (String × Val)) :=
    if has_var_kwargs then
      match apop d0 vf.kwargs_field_name with
      | some (.vdict m, d1) => .ok (aupdate d1 m)
      | some _ => .error .runtimeError
      | none => .error .runtimeError
    else .ok d0
  match dE with
  | .error e => .error e
  | .ok d =>
    if has_var_args then
      match execWalk vf.args_field_name d false [] [] with
      | .error e => .error e
      | .ok (a, k) => .ok ⟨a, k⟩
    else if !vf.positional_only_args.isEmpty then
      .ok ⟨(d.filter fun kv => vf.positional_only_args.contains kv.1).map Prod.snd,
           d.filter fun kv => !vf.positional_only_args.contains kv.1⟩
    else .ok ⟨[], d⟩

/-- The whole call path `ValidatedFunction.__call__` (decorator.py lines
95-98) up to the invocation of the wrapped callable: the `Call` with which
`self.raw_function` is invoked, or the error raised before reaching it. -/
def vfCall (params : List Param) (args : List Val) (kwargs : List (String × Val)) :
    Except Err Call :=
  match vfInit params with
  | .error e => .error e
  | .ok vf =>
    match build_values vf args kwargs with
    | .error e => .error e
    | .ok bv =>
      match modelValidate vf.fields bv.values with
      | .error e => .error e
      | .ok d => execute vf d bv.has_var_args bv.has_var_kwargs

/-- The wrapper as observed by the caller: run the pipeline, then invoke the
wrapped callable (`raw`) on the reconstructed call; `raw`'s own outcome —
including any error it raises — is returned unchanged (line 149/158/160 are
plain tail calls, there is no handler around them). -/
def wrapperRun (raw : Call → Except Err Val) (params : List Param) (args : List Val)
    (kwargs : List (String × Val)) : Except Err Val :=
  match vfCall params args kwargs with
  | .error e => .error e
  | .ok c => raw c

/-- Pipeline lens: the explicitly-set field values (declaration order) that
`execute` receives, i.e. `{k: v for k, v in m._iter() if k in m.__fields_set__}`. -/
def explicitValues (params : List Param) (args : List Val) (kwargs : List (String × Val)) :
    Except Err (List (String × Val)) :=
  match vfInit params with
  | .error e => .error e
  | .ok vf =>
    match build_values vf args kwargs with
    | .error e => .error e
    | .ok bv => modelValidate vf.fields bv.values

/-- Pipeline lens: the values map produced by `build_values`. -/
def boundValuesOf (params : List Param) (args : List Val) (kwargs : List (String × Val)) :
    Except Err (List (String × Val)) :=
  match vfInit params with
  | .error e => .error e
  | .ok vf =>
    match build_values vf args kwargs with
    | .error e => .error e
    | .ok bv => .ok bv.values

/-- Errors of a direct Python call to the wrapped callable. -/
inductive BindErr : Type where
  | tooManyPositional
  | unexpectedKeyword (k : String)
  | multipleValues (k : String)
  | missingArgument (k : String)
  | posOnlyAsKeyword (k : String)
deriving DecidableEq

def isPosCapable (p : Param) : Bool :=
  p.kind == .positionalOnly || p.kind == .positionalOrKeyword

/-- Parameters that can receive a positional argument, in order. -/
def posCapable (params : List Param) : List Param :=
  params.filter isPosCapable

/-- Names a keyword argument may target (positional-or-keyword, keyword-only). -/
def kwTargetNames (params : List Param) : List String :=
  (params.filter fun p => p.kind == .positionalOrKeyword || p.kind == .keywordOnly).map Param.name

def posOnlyNames (params : List Param) : List String :=
  (params.filter fun p => p.kind == .positionalOnly).map Param.name

def hasVarPos (params : List Param) : Bool :=
  params.any fun p => p.kind == .varPositional

def hasVarKw (params : List Param) : Bool :=
  params.any fun p => p.kind == .varKeyword

/-- Names bound by the first `n` positional arguments. -/
def posBoundNames (params : List Param) (n : Nat) : List String :=
  ((posCapable params).take n).map Param.name

/-- Keyword-argument screening of a direct Python call: a keyword for an
already positionally-bound parameter is a `TypeError` ("got multiple values"),
an unknown keyword without a `**`-parameter is a `TypeError`, a keyword naming
a positional-only parameter goes to the `**`-parameter when one exists and is
a `TypeError` otherwise. -/
def bindKwWalk (params : List Param) (n : Nat) : List (String × Val) → Option BindErr
  | [] => none
  | (k, _) :: t =>
    if (kwTargetNames params).contains k then
      if (posBoundNames params n).contains k then some (.multipleValues k)
      else bindKwWalk params n t
    else if hasVarKw params then bindKwWalk params n t
    else if (posOnlyNames params).contains k then some (.posOnlyAsKeyword k)
    else some (.unexpectedKeyword k)

/-- Resolution of each parameter of a direct Python call, in declaration
order; `j` is the index among positional-capable parameters seen so far. -/
def bindResolve (params : List Param) (pos : List Val) (kws : List (String × Val)) :
    List Param → Nat → Except BindErr (List (String × Val))
  | [], _ => .ok []
  | p :: t, j =>
    match p.kind with
    | .varPositional =>
      (bindResolve params pos kws t j).map
        fun r => (p.name, Val.vlist (pos.drop (posCapable params).length)) :: r
    | .varKeyword =>
      (bindResolve params pos kws t j).map
        fun r => (p.name, Val.vdict (kws.filter fun kv => !(kwTargetNames params).contains kv.1)) :: r
    | .keywordOnly =>
      match (aget kws p.name).orElse (fun _ => p.default) with
      | some v => (bindResolve params pos kws t j).map fun r => (p.name, v) :: r
      | none => .error (.missingArgument p.name)
    | .positionalOnly =>
      match (pos.get? j).orElse (fun _ => p.default) with
      | some v => (bindResolve params pos kws t (j + 1)).map fun r => (p.name, v) :: r
      | none => .error (.missingArgument p.name)
    | .positionalOrKeyword =>
      match ((pos.get? j).orElse fun _ => (aget kws p.name).orElse fun _ => p.default) with
      | some v => (bindResolve params pos kws t (j + 1)).map fun r => (p.name, v) :: r
      | none => .error (.missingArgument p.name)

/-- Python's binding of a direct call `f(*pos, **kws)` against the declared
signature: the resulting parameter-name-to-value assignment in declaration
order, or the `TypeError` the call raises.  This is the reference ("spec")
semantics of invoking the original callable, used to state observational
equality between the wrapper and a direct call. -/
def pythonBind (params : List Param) (pos : List Val) (kws : List (String × Val)) :
    Except BindErr (List (String × Val)) :=
  if pos.length > (posCapable params).length && !hasVarPos params then
    .error .tooManyPositional
  else
    match bindKwWalk params pos.length kws with
    | some e => .error e
    | none => bindResolve params pos kws params 0

/-- A sample wrapped callable used by concrete witnesses. -/
def raw0 : Call → Except Err Val := fun _ => .ok (.base 42)

/-- The model-field default the `__init__` loop stores for a parameter:
variadic parameters get `None` (lines 78/83), the rest keep their own default
(`none` = the required sentinel `...`). -/
def fieldDefault (p : Param) : Option Val :=
  match p.kind with
  | .varPositional => some .pynone
  | .varKeyword => some .pynone
  | _ => p.default

/-- The `arg_mapping` contributed by parameters starting at enumerate index
`i`: positional-capable parameters are recorded at their enumerate index. -/
def mappingOf : Nat → List Param → List (Nat × String)
  | _, [] => []
  | i, p :: t =>
    if isPosCapable p then (i, p.name) :: mappingOf (i + 1) t
    else mappingOf (i + 1) t

/-- Names indexed consecutively from `i`. -/
def idxNames : Nat → List String → List (Nat × String)
  | _, [] => []
  | i, n :: t => (i, n) :: idxNames (i + 1) t

/-- The signature `f(a, b=2, *rest, **kw)`. -/
def sigABRestKw : List Param :=
  [⟨"a", .positionalOrKeyword, none⟩, ⟨"b", .positionalOrKeyword, some (.base 2)⟩,
   ⟨"rest", .varPositional, none⟩, ⟨"kw", .varKeyword, none⟩]

/-- The signature `f(*rest)`. -/
def sigRest : List Param := [⟨"rest", .varPositional, none⟩]

/-- The signature `f(args=1)`: no `*args`, but a parameter literally named
after the default overflow label. -/
def sigArgsDefault : List Param := [⟨"args", .positionalOrKeyword, some (.base 1)⟩]

/-- The signature `f(a, /, b)`. -/
def sigPosOnlyAB : List Param :=
  [⟨"a", .positionalOnly, none⟩, ⟨"b", .positionalOrKeyword, none⟩]

/-- The signature `f(*rest, args=1)`: keyword-only `args` with a default,
next to a declared variadic-positional `rest`. -/
def sigRestArgsKw : List Param :=
  [⟨"rest", .varPositional, none⟩, ⟨"args", .keywordOnly, some (.base 1)⟩]

/-- The signature `f(a)`. -/
def sigA : List Param := [⟨"a", .positionalOrKeyword, none⟩]

/-- The signature `f(a, /)`. -/
def sigAPosOnly : List Param := [⟨"a", .positionalOnly, none⟩]

/-! ### Basic lemmas about the Python-dict model -/

theorem aget_aset {κ β : Type} [DecidableEq κ] (m : List (κ × β)) (k : κ) (v : β) (k' : κ) :
    aget (aset m k v) k' = if k' = k then some v else aget m k' := by
  induction m with
  | nil =>
    by_cases h : k' = k
    · simp [aset, aget, h]
    · simp [aset, aget, h, Ne.symm h]
  | cons hd tl ih =>
    obtain ⟨k0, v0⟩ := hd
    by_cases h0 : k0 = k
    · subst h0
      by_cases h : k' = k0
      · simp [aset, aget, h]
      · simp [aset, aget, h, Ne.symm h]
    · by_cases h : k' = k0
      · subst h
        simp [aset, aget, h0, Ne.symm h0]
      · simp [aset, aget, h0, h, Ne.symm h, ih]

theorem akey_aset {κ β : Type} [DecidableEq κ] (m : List (κ × β)) (k : κ) (v : β) (k' : κ) :
    akey (aset m k v) k' = (k' == k || akey m k') := by
  by_cases h : k' = k <;> simp [akey, aget_aset, h]

theorem akey_iff_mem {κ β : Type} [DecidableEq κ] (m : List (κ × β)) (k : κ) :
    akey m k = true ↔ k ∈ m.map Prod.fst := by
  induction m with
  | nil => simp [akey, aget]
  | cons hd tl ih =>
    obtain ⟨k0, v0⟩ := hd
    by_cases h : k0 = k
    · subst h
      simp [akey, aget]
    · simp only [akey, aget, h, if_false, List.map_cons, List.mem_cons] at ih ⊢
      rw [ih]
      constructor
      · exact Or.inr
      · rintro (hc | hm)
        · exact absurd hc.symm h
        · exact hm

theorem aget_mem {κ β : Type} [DecidableEq κ] (m : List (κ × β)) (k : κ) (v : β)
    (h : aget m k = some v) : (k, v) ∈ m := by
  induction m with
  | nil => simp [aget] at h
  | cons hd tl ih =>
    obtain ⟨k0, v0⟩ := hd
    by_cases h0 : k0 = k
    · subst h0
      simp [aget] at h
      simp [h]
    · simp [aget, h0] at h
      exact List.mem_cons_of_mem _ (ih h)

theorem aset_fresh {κ β : Type} [DecidableEq κ] (m : List (κ × β)) (k : κ) (v : β)
    (h : akey m k = false) : aset m k v = m ++ [(k, v)] := by
  induction m with
  | nil => simp [aset]
  | cons hd tl ih =>
    obtain ⟨k0, v0⟩ := hd
    by_cases h0 : k0 = k
    · subst h0
      simp [akey, aget] at h
    · have htl : akey tl k = false := by
        simp only [akey, aget, h0, if_false] at h
        exact h
      simp [aset, h0, ih htl]

theorem aget_append {κ β : Type} [DecidableEq κ] (m n : List (κ × β)) (k : κ) :
    aget (m ++ n) k = if akey m k then aget m k else aget n k := by
  induction m with
  | nil => simp [aget, akey]
  | cons hd tl ih =>
    obtain ⟨k0, v0⟩ := hd
    by_cases h : k0 = k
    · subst h
      simp [aget, akey]
    · simp [aget, akey, h, ih]

theorem aupdate_fresh {κ β : Type} [DecidableEq κ] (l : List (κ × β)) :
    ∀ acc : List (κ × β), (∀ x ∈ l.map Prod.fst, akey acc x = false) →
      (l.map Prod.fst).Nodup → aupdate acc l = acc ++ l := by
  induction l with
  | nil => intro acc _ _; simp [aupdate]
  | cons hd tl ih =>
    intro acc hfresh hnd
    obtain ⟨k0, v0⟩ := hd
    rw [List.map_cons, List.nodup_cons] at hnd
    have hk0 : akey acc k0 = false := hfresh k0 (by simp)
    have step : aupdate acc ((k0, v0) :: tl) = aupdate (aset acc k0 v0) tl := rfl
    rw [step, aset_fresh acc k0 v0 hk0, ih (acc ++ [(k0, v0)])]
    · simp
    · intro x hx
      have hxne : k0 ≠ x := fun hc => hnd.1 (hc ▸ hx)
      have hax : aget (acc ++ [(k0, v0)]) x = none := by
        rw [aget_append]
        simp [hfresh x (by simp [hx]), aget, hxne]
      simp [akey, hax]
    · exact hnd.2

theorem aget_aupdate_nodup {κ β : Type} [DecidableEq κ] (l : List (κ × β)) :
    ∀ (m : List (κ × β)) (k : κ), (l.map Prod.fst).Nodup →
      aget (aupdate m l) k =
        match aget l k with | some v => some v | none => aget m k := by
  induction l with
  | nil => intro m k _; simp [aupdate, aget]
  | cons hd tl ih =>
    intro m k hnd
    obtain ⟨k0, v0⟩ := hd
    rw [List.map_cons, List.nodup_cons] at hnd
    have step : aupdate m ((k0, v0) :: tl) = aupdate (aset m k0 v0) tl := rfl
    rw [step, ih (aset m k0 v0) k hnd.2]
    by_cases h : k = k0
    · subst h
      have hnone : aget tl k = none := by
        cases hcase : aget tl k with
        | none => rfl
        | some w => exact absurd (List.mem_map_of_mem Prod.fst (aget_mem tl k w hcase)) hnd.1
      rw [hnone]
      simp [aget, aget_aset]
    · cases hcase : aget tl k with
      | some w => simp [hcase, aget, Ne.symm h]
      | none => simp [hcase, aget, Ne.symm h, aget_aset, h]

theorem aset_ne_nil {κ β : Type} [DecidableEq κ] (m : List (κ × β)) (k : κ) (v : β) :
    aset m k v ≠ [] := by
  cases m with
  | nil => simp [aset]
  | cons hd tl =>
    obtain ⟨k0, v0⟩ := hd
    by_cases h : k0 = k <;> simp [aset, h]

theorem aupdate_ne_nil {κ β : Type} [DecidableEq κ] (l : List (κ × β)) :
    ∀ acc : List (κ × β), acc ≠ [] → aupdate acc l ≠ [] := by
  induction l with
  | nil => intro acc h; simpa [aupdate] using h
  | cons hd tl ih =>
    intro acc _
    have step : aupdate acc (hd :: tl) = aupdate (aset acc hd.1 hd.2) tl := rfl
    rw [step]
    exact ih _ (aset_ne_nil acc hd.1 hd.2)

/-! ### Characterizing the `__init__` loop -/

@[simp] theorem paramKind_beq (k1 k2 : ParamKind) : (k1 == k2) = decide (k1 = k2) := by
  cases k1 <;> cases k2 <;> rfl

theorem loop_arg_mapping : ∀ (ps : List Param) (i : Nat) (s : LoopState),
    (loopParams i ps s).arg_mapping = s.arg_mapping ++ mappingOf i ps := by
  intro ps
  induction ps with
  | nil => intro i s; simp [loopParams, mappingOf]
  | cons p t ih =>
    intro i s
    rw [loopParams, ih]
    cases hk : p.kind <;> simp [processParam, hk, mappingOf, isPosCapable]

theorem loop_allows_va : ∀ (ps : List Param) (i : Nat) (s : LoopState),
    (loopParams i ps s).allows_var_args =
      (s.allows_var_args || ps.any fun p => p.kind == .varPositional) := by
  intro ps
  induction ps with
  | nil => intro i s; simp [loopParams]
  | cons p t ih =>
    intro i s
    rw [loopParams, ih]
    cases hk : p.kind <;> simp [processParam, hk, beq_iff_eq]

theorem loop_allows_vk : ∀ (ps : List Param) (i : Nat) (s : LoopState),
    (loopParams i ps s).allows_var_kwargs =
      (s.allows_var_kwargs || ps.any fun p => p.kind == .varKeyword) := by
  intro ps
  induction ps with
  | nil => intro i s; simp [loopParams]
  | cons p t ih =>
    intro i s
    rw [loopParams, ih]
    cases hk : p.kind <;> simp [processParam, hk, beq_iff_eq]

theorem loop_ponly_mem : ∀ (ps : List Param) (i : Nat) (s : LoopState) (k : String),
    k ∈ (loopParams i ps s).positional_only_args ↔
      k ∈ s.positional_only_args ∨ k ∈ posOnlyNames ps := by
  intro ps
  induction ps with
  | nil => intro i s k; simp [loopParams, posOnlyNames]
  | cons p t ih =>
    intro i s k
    rw [loopParams, ih]
    cases hk : p.kind
    case positionalOnly =>
      have hmem : k ∈ (processParam s i p).positional_only_args ↔
          k ∈ s.positional_only_args ∨ k = p.name := by
        simp only [processParam, hk]
        by_cases hc : s.positional_only_args.contains p.name = true
        · rw [if_pos hc]
          constructor
          · exact Or.inl
          · rintro (h | rfl)
            · exact h
            · simpa using hc
        · rw [if_neg hc]
          simp
      have hpos : posOnlyNames (p :: t) = p.name :: posOnlyNames t := by
        simp [posOnlyNames, List.filter_cons, hk]
      rw [hmem, hpos]
      simp only [List.mem_cons]
      tauto
    all_goals
      have hmem : (processParam s i p).positional_only_args = s.positional_only_args := by
        simp only [processParam, hk]
    all_goals
      have hpos : posOnlyNames (p :: t) = posOnlyNames t := by
        simp [posOnlyNames, List.filter_cons, hk, beq_iff_eq]
    all_goals rw [hmem, hpos]

theorem loop_fields_eq : ∀ (ps : List Param) (i : Nat) (s : LoopState),
    (ps.map Param.name).Nodup → (∀ p ∈ ps, akey s.fields p.name = false) →
    (loopParams i ps s).fields = s.fields ++ ps.map (fun p => (p.name, fieldDefault p)) := by
  intro ps
  induction ps with
  | nil => intro i s _ _; simp [loopParams]
  | cons p t ih =>
    intro i s hnd hfresh
    rw [List.map_cons, List.nodup_cons] at hnd
    have hstepf : (processParam s i p).fields = s.fields ++ [(p.name, fieldDefault p)] := by
      have hf : akey s.fields p.name = false := hfresh p (by simp)
      cases hk : p.kind <;> simp [processParam, hk, fieldDefault, aset_fresh _ _ _ hf]
    rw [loopParams, ih (i + 1) (processParam s i p) hnd.2]
    · rw [hstepf]
      simp
    · intro q hq
      have hqne : q.name ≠ p.name := by
        intro hc
        exact hnd.1 (hc ▸ List.mem_map_of_mem Param.name hq)
      have hqf : akey s.fields q.name = false := hfresh q (by simp [hq])
      rw [hstepf]
      have hnone : aget (s.fields ++ [(p.name, fieldDefault p)]) q.name = none := by
        rw [aget_append]
        simp [hqf, aget, Ne.symm hqne]
      simp [akey, hnone]

theorem loop_ponly_fields : ∀ (ps : List Param) (i : Nat) (s : LoopState),
    (∀ k ∈ s.positional_only_args, akey s.fields k = true) →
    ∀ k ∈ (loopParams i ps s).positional_only_args,
      akey (loopParams i ps s).fields k = true := by
  intro ps
  induction ps with
  | nil => intro i s hinv; simpa [loopParams] using hinv
  | cons p t ih =>
    intro i s hinv
    rw [loopParams]
    apply ih
    intro k hk
    have hmono : ∀ (m : List (String × Option Val)) (k0 : String) (v : Option Val),
        akey m k = true → akey (aset m k0 v) k = true := by
      intro m k0 v h
      rw [akey_aset]
      simp [h]
    cases hpk : p.kind
    case positionalOnly =>
      simp only [processParam, hpk] at hk ⊢
      by_cases hc : s.positional_only_args.contains p.name = true
      · rw [if_pos hc] at hk
        exact hmono _ _ _ (hinv k hk)
      · rw [if_neg hc] at hk
        rw [List.mem_append] at hk
        cases hk with
        | inl h => exact hmono _ _ _ (hinv k h)
        | inr h =>
          have hkp : k = p.name := by simpa using h
          subst hkp
          rw [akey_aset]
          simp
    case positionalOrKeyword =>
      simp only [processParam, hpk] at hk ⊢
      exact hmono _ _ _ (hinv k hk)
    case keywordOnly =>
      simp only [processParam, hpk] at hk ⊢
      exact hmono _ _ _ (hinv k hk)
    case varPositional =>
      simp only [processParam, hpk] at hk ⊢
      exact hmono _ _ _ (hinv k hk)
    case varKeyword =>
      simp only [processParam, hpk] at hk ⊢
      exact hmono _ _ _ (hinv k hk)

/-! ### Characterizing `vfInit` / `mkVF` -/

theorem vfInit_ok_elim (params : List Param) (vf : ValidatedFunction)
    (h : vfInit params = .ok vf) :
    vf = mkVF params ∧
      (params.any fun p => p.name == ALT_VAR_ARGS || p.name == ALT_VAR_KWARGS) = false := by
  by_cases hb : (params.any fun p => p.name == ALT_VAR_ARGS || p.name == ALT_VAR_KWARGS) = true
  · simp [vfInit, hb] at h
  · have hb' : (params.any fun p => p.name == ALT_VAR_ARGS || p.name == ALT_VAR_KWARGS) = false := by
      simpa using hb
    simp [vfInit, hb'] at h
    exact ⟨h.symm, hb'⟩

theorem mkVF_arg_mapping (params : List Param) :
    (mkVF params).arg_mapping = mappingOf 0 params := by
  simp [mkVF, loop_arg_mapping, initLoopState]

theorem mkVF_fields (params : List Param) (hnd : (params.map Param.name).Nodup) :
    (mkVF params).fields = params.map fun p => (p.name, fieldDefault p) := by
  have h := loop_fields_eq params 0 initLoopState hnd
    (by intro p _; simp [initLoopState, akey, aget])
  simp only [mkVF]
  rw [h]
  simp [initLoopState]

theorem mkVF_ponly_mem (params : List Param) (k : String) :
    k ∈ (mkVF params).positional_only_args ↔ k ∈ posOnlyNames params := by
  have h := loop_ponly_mem params 0 initLoopState k
  simp only [mkVF]
  rw [h]
  simp [initLoopState]

theorem mkVF_afn (params : List Param) :
    (mkVF params).args_field_name =
      if !hasVarPos params && akey (mkVF params).fields "args" then ALT_VAR_ARGS
      else "args" := by
  simp only [mkVF, loop_allows_va, initLoopState, Bool.false_or, hasVarPos]

theorem mkVF_kfn (params : List Param) :
    (mkVF params).kwargs_field_name =
      if !hasVarKw params && akey (mkVF params).fields "kwargs" then ALT_VAR_KWARGS
      else "kwargs" := by
  simp only [mkVF, loop_allows_vk, initLoopState, Bool.false_or, hasVarKw]

/-! ### Claim theorems (concrete signatures) -/

/-- C1: code-bug evidence.  For `f(a, b=2, *rest, **kw)` the loop stores the
declared variadic names only into the never-read attributes
(`uargs`/`ukwargs`, i.e. `self._args_field_name`/`self._kwargs_field_name`),
so the carriers stay `"args"`/`"kwargs"`; calling `wrap(f)(1, 2, 3, x=4)`
binds `a=1, b=2` but routes the overflow to the non-field keys
`"args"`/`"kwargs"` instead of `rest`/`kw`, and the extra-forbidding model
rejects the call instead of invoking `f(1, 2, 3, x=4)`. -/
theorem claim_C1_code_bug :
    (vfInit sigABRestKw).map
        (fun vf => (vf.args_field_name, vf.kwargs_field_name, vf.uargs, vf.ukwargs)) =
      .ok ("args", "kwargs", some "rest", some "kw") ∧
    boundValuesOf sigABRestKw [.base 1, .base 2, .base 3] [("x", .base 4)] =
      .ok [("a", .base 1), ("b", .base 2), ("args", .vlist [.base 3]),
           ("kwargs", .vdict [("x", .base 4)])] ∧
    vfCall sigABRestKw [.base 1, .base 2, .base 3] [("x", .base 4)] =
      .error (.validationExtra "args") ∧
    wrapperRun raw0 sigABRestKw [.base 1, .base 2, .base 3] [("x", .base 4)] =
      .error (.validationExtra "args") := by
  exact ⟨rfl, rfl, rfl, rfl⟩

/-- C2: counterexample.  For `f(*rest)` — a callable that does declare a
variadic positional parameter — `args_field_name` is `"args"`, which is not the
declared parameter's name `"rest"`, and `"args"` is not a field of the
constructed model either; so neither "the field named by
`varPositionalFieldName` exists as a field" nor "the corresponding field name
equals the declared parameter's name" holds. -/
theorem claim_C2_counterexample :
    (vfInit sigRest).map
        (fun vf => (vf.args_field_name, akey vf.fields vf.args_field_name,
                    akey vf.fields "rest")) =
      .ok ("args", false, true) := by
  exact rfl

/-- C3: counterexample.  For `f(args=1)` the call `wrap(f)(1, 2, 3)` does not
reach the wrapped callable at all: the overflow is routed to the synthetic
alias `var__args`, which is not a field of the model, so the extra-forbidding
model raises a `ValidationError`; `f` never receives `args=1`. -/
theorem claim_C3_counterexample :
    wrapperRun raw0 sigArgsDefault [.base 1, .base 2, .base 3] [] =
      .error (.validationExtra "var__args") := by
  exact rfl

/-- C3 (amended): the binder does route the overflow `(2, 3)` through the
aliased synthetic field `var__args` and leaves the declared `args` value `1`
intact in the values map, but because `var__args` is not a model field the
call is then rejected by validation (`Extra.forbid`) and the wrapped callable
is never invoked. -/
theorem claim_C3_amended :
    boundValuesOf sigArgsDefault [.base 1, .base 2, .base 3] [] =
      .ok [("args", .base 1), ("var__args", .vlist [.base 2, .base 3])] ∧
    vfCall sigArgsDefault [.base 1, .base 2, .base 3] [] =
      .error (.validationExtra "var__args") := by
  exact ⟨rfl, rfl⟩

/-- C4: wrapping a callable that declares a parameter named `var__args` or
`var__kwargs` raises `DecoratorSetupError` at wrap time (lines 49-53, before
the field loop runs and before the model is built — in this embedding the
error short-circuits `mkVF`), and this is the only wrap-time error: with no
such parameter, `vfInit` succeeds. -/
theorem claim_C4_reserved_names : ∀ params : List Param,
    (vfInit params = .error .setupError ↔
      ∃ p ∈ params, p.name = ALT_VAR_ARGS ∨ p.name = ALT_VAR_KWARGS) ∧
    ((vfInit params).isOk = true ∨ vfInit params = .error .setupError) := by
  intro params
  have hiff : (params.any fun p => p.name == ALT_VAR_ARGS || p.name == ALT_VAR_KWARGS) = true ↔
      ∃ p ∈ params, p.name = ALT_VAR_ARGS ∨ p.name = ALT_VAR_KWARGS := by
    simp [List.any_eq_true]
  by_cases hb : (params.any fun p => p.name == ALT_VAR_ARGS || p.name == ALT_VAR_KWARGS) = true
  · rw [vfInit, if_pos hb]
    refine ⟨⟨fun _ => hiff.mp hb, fun _ => rfl⟩, Or.inr rfl⟩
  · rw [vfInit, if_neg hb]
    refine ⟨⟨fun hc => absurd hc (by simp), fun hex => absurd (hiff.mpr hex) hb⟩, Or.inl rfl⟩

/-- C4 witness: `f(var__args)` is rejected at wrap time; `f(a)` is not. -/
theorem claim_C4_witness :
    vfInit [⟨ALT_VAR_ARGS, .positionalOrKeyword, none⟩] = .error .setupError ∧
    (vfInit sigA).isOk = true := by
  constructor
  · exact (claim_C4_reserved_names [⟨ALT_VAR_ARGS, .positionalOrKeyword, none⟩]).1.mpr
      ⟨⟨ALT_VAR_ARGS, .positionalOrKeyword, none⟩, by simp, Or.inl rfl⟩
  · rcases (claim_C4_reserved_names sigA).2 with h | h
    · exact h
    · exact absurd ((claim_C4_reserved_names sigA).1.mp h)
        (by simp [sigA, ALT_VAR_ARGS, ALT_VAR_KWARGS])

/-- C6: reconstruction for positional-only parameters.  In general, with no
variadic overflow in play, `execute` passes exactly the explicitly-set fields
whose names are in `positional_only_args` positionally (in declaration order)
and every other explicitly-set field by keyword; in particular for
`f(a, /, b)`, `wrap(f)(1, b=2)` invokes `f(1, b=2)`. -/
theorem claim_C6_pos_only :
    (∀ (vf : ValidatedFunction) (d : List (String × Val)),
      execute vf d false false =
        if vf.positional_only_args.isEmpty then .ok ⟨[], d⟩
        else .ok ⟨(d.filter fun kv => vf.positional_only_args.contains kv.1).map Prod.snd,
                  d.filter fun kv => !vf.positional_only_args.contains kv.1⟩) ∧
    (∀ v1 v2 : Val, vfCall sigPosOnlyAB [v1] [("b", v2)] = .ok ⟨[v1], [("b", v2)]⟩) := by
  constructor
  · intro vf d
    by_cases h : vf.positional_only_args.isEmpty <;> simp [execute, h]
  · intro v1 v2
    rfl

/-- C7: code-bug evidence.  For `f(*rest, args=1)`, calling `wrap(f)(5)` omits
the defaulted parameter `args` entirely, yet `args` appears among the
explicitly-set field values used for reconstruction: the overflow carrier is
the key `"args"` (never updated to the declared `"rest"`, which only reaches
the dead `_args_field_name` attribute), and `"args"` names the declared
keyword-only field.  The claim requires the omitted defaulted parameter not to
appear in the explicit values at all. -/
theorem claim_C7_code_bug :
    (vfInit sigRestArgsKw).map (fun vf => (vf.args_field_name, vf.uargs)) =
      .ok ("args", some "rest") ∧
    explicitValues sigRestArgsKw [.base 5] [] =
      .ok [("args", .vlist [.base 5])] ∧
    vfCall sigRestArgsKw [.base 5] [] = .ok ⟨[.base 5], []⟩ := by
  exact ⟨rfl, rfl, rfl⟩

/-- C9: error propagation.  If the pipeline (binding + validation) fails, the
error is returned to the caller and the wrapped callable is never invoked (the
wrapper's result does not depend on it); if the pipeline succeeds, the wrapper
returns exactly what the wrapped callable returns — including any error the
callable itself raises, unchanged. -/
theorem claim_C9_propagation : ∀ (params : List Param) (pos : List Val)
    (kws : List (String × Val)) (raw raw2 : Call → Except Err Val) (c : Call) (e : Err),
    (vfCall params pos kws = .ok c → wrapperRun raw params pos kws = raw c) ∧
    (vfCall params pos kws = .error e →
      wrapperRun raw params pos kws = .error e ∧
      wrapperRun raw params pos kws = wrapperRun raw2 params pos kws) := by
  intro params pos kws raw raw2 c e
  constructor
  · intro h
    simp [wrapperRun, h]
  · intro h
    simp [wrapperRun, h]

/-- C9 witness: a successful pipeline hands the reconstructed call to the
wrapped callable and returns its result. -/
theorem claim_C9_witness :
    wrapperRun raw0 sigA [.base 1] [] = .ok (.base 42) := by
  exact (claim_C9_propagation sigA [.base 1] [] raw0 raw0
    ⟨[], [("a", .base 1)]⟩ .setupError).1 rfl

/-! ### C2 (amended): what the schema-building really guarantees -/

theorem aget_map_param (params : List Param) (f : Param → Option Val) (p : Param) :
    (params.map Param.name).Nodup → p ∈ params →
    aget (params.map fun q => (q.name, f q)) p.name = some (f p) := by
  induction params with
  | nil => intro _ hp; cases hp
  | cons q t ih =>
    intro hnd hp
    rw [List.map_cons, List.nodup_cons] at hnd
    rcases List.mem_cons.mp hp with rfl | hpt
    · simp [aget]
    · have hne : q.name ≠ p.name :=
        fun hc => hnd.1 (hc ▸ List.mem_map_of_mem Param.name hpt)
      simp only [List.map_cons, aget, hne, if_false]
      exact ih hnd.2 hpt

/-- C2 (amended): the model's fields are exactly the declared parameters — no
synthetic overflow fields are added; a declared variadic parameter's field
exists under its own name with default `None`; the carrier names
`args_field_name`/`kwargs_field_name` are always `"args"`/`"kwargs"` or their
`var__` aliases (never the declared variadic's name), and they name a model
field exactly when the callable declares both a variadic of that kind and a
parameter literally named `"args"`/`"kwargs"`; in particular, with no variadic
declared the carrier is not a field, so overflow arguments are rejected by the
extra-forbidding model rather than landing in a field. -/
theorem claim_C2_amended : ∀ (params : List Param) (vf : ValidatedFunction),
    vfInit params = .ok vf → (params.map Param.name).Nodup →
    (vf.fields.map Prod.fst = params.map Param.name) ∧
    (∀ p ∈ params, p.kind = .varPositional → aget vf.fields p.name = some (some .pynone)) ∧
    (∀ p ∈ params, p.kind = .varKeyword → aget vf.fields p.name = some (some .pynone)) ∧
    (vf.args_field_name = "args" ∨ vf.args_field_name = ALT_VAR_ARGS) ∧
    (vf.kwargs_field_name = "kwargs" ∨ vf.kwargs_field_name = ALT_VAR_KWARGS) ∧
    (akey vf.fields vf.args_field_name = true ↔
      hasVarPos params = true ∧ "args" ∈ params.map Param.name) ∧
    (akey vf.fields vf.kwargs_field_name = true ↔
      hasVarKw params = true ∧ "kwargs" ∈ params.map Param.name) := by
  intro params vf hok hnd
  obtain ⟨hvf, hbad⟩ := vfInit_ok_elim params vf hok
  subst hvf
  have hfields := mkVF_fields params hnd
  have hkeys : (mkVF params).fields.map Prod.fst = params.map Param.name := by
    rw [hfields]
    simp
  have hmemk : ∀ k, akey (mkVF params).fields k = true ↔ k ∈ params.map Param.name := by
    intro k
    rw [akey_iff_mem, hkeys]
  rw [List.any_eq_false] at hbad
  have hnoalt : ALT_VAR_ARGS ∉ params.map Param.name := by
    intro hmem
    obtain ⟨p, hp, hpn⟩ := List.mem_map.mp hmem
    have := hbad p hp
    simp [hpn] at this
  have hnoaltk : ALT_VAR_KWARGS ∉ params.map Param.name := by
    intro hmem
    obtain ⟨p, hp, hpn⟩ := List.mem_map.mp hmem
    have := hbad p hp
    simp [hpn] at this
  refine ⟨hkeys, ?_, ?_, ?_, ?_, ?_, ?_⟩
  · intro p hp hkind
    rw [hfields, aget_map_param params _ p hnd hp, fieldDefault, hkind]
  · intro p hp hkind
    rw [hfields, aget_map_param params _ p hnd hp, fieldDefault, hkind]
  · rw [mkVF_afn]
    by_cases h : (!hasVarPos params && akey (mkVF params).fields "args") = true
    · rw [if_pos h]
      exact Or.inr rfl
    · rw [if_neg h]
      exact Or.inl rfl
  · rw [mkVF_kfn]
    by_cases h : (!hasVarKw params && akey (mkVF params).fields "kwargs") = true
    · rw [if_pos h]
      exact Or.inr rfl
    · rw [if_neg h]
      exact Or.inl rfl
  · rw [mkVF_afn]
    by_cases hvp : hasVarPos params = true
    · have hc : (!hasVarPos params && akey (mkVF params).fields "args") = false := by
        simp [hvp]
      rw [hc]
      simp only [Bool.false_eq_true, if_false, hmemk]
      exact ⟨fun h => ⟨hvp, h⟩, fun h => h.2⟩
    · have hvp' : hasVarPos params = false := by simpa using hvp
      by_cases hargs : "args" ∈ params.map Param.name
      · have hc : (!hasVarPos params && akey (mkVF params).fields "args") = true := by
          simp [hvp', (hmemk "args").mpr hargs]
        rw [hc]
        simp only [if_true, hmemk]
        exact ⟨fun h => absurd h hnoalt, fun h => absurd h.1 (by simp [hvp'])⟩
      · have hc : (!hasVarPos params && akey (mkVF params).fields "args") = false := by
          have : akey (mkVF params).fields "args" = false := by
            rcases hb : akey (mkVF params).fields "args" with _ | _
            · rfl
            · exact absurd ((hmemk "args").mp hb) hargs
          simp [this]
        rw [hc]
        simp only [Bool.false_eq_true, if_false, hmemk]
        exact ⟨fun h => absurd h hargs, fun h => absurd h.1 (by simp [hvp'])⟩
  · rw [mkVF_kfn]
    by_cases hvk : hasVarKw params = true
    · have hc : (!hasVarKw params && akey (mkVF params).fields "kwargs") = false := by
        simp [hvk]
      rw [hc]
      simp only [Bool.false_eq_true, if_false, hmemk]
      exact ⟨fun h => ⟨hvk, h⟩, fun h => h.2⟩
    · have hvk' : hasVarKw params = false := by simpa using hvk
      by_cases hkw : "kwargs" ∈ params.map Param.name
      · have hc : (!hasVarKw params && akey (mkVF params).fields "kwargs") = true := by
          simp [hvk', (hmemk "kwargs").mpr hkw]
        rw [hc]
        simp only [if_true, hmemk]
        exact ⟨fun h => absurd h hnoaltk, fun h => absurd h.1 (by simp [hvk'])⟩
      · have hc : (!hasVarKw params && akey (mkVF params).fields "kwargs") = false := by
          have : akey (mkVF params).fields "kwargs" = false := by
            rcases hb : akey (mkVF params).fields "kwargs" with _ | _
            · rfl
            · exact absurd ((hmemk "kwargs").mp hb) hkw
          simp [this]
        rw [hc]
        simp only [Bool.false_eq_true, if_false, hmemk]
        exact ⟨fun h => absurd h hkw, fun h => absurd h.1 (by simp [hvk'])⟩

/-- C2 (amended) witness at `f(a, *rest)`: fields are exactly `a` and `rest`
(with `rest` present, default `None`), while the carrier name `"args"` is not
a field. -/
theorem claim_C2_amended_witness :
    (mkVF [⟨"a", .positionalOrKeyword, none⟩, ⟨"rest", .varPositional, none⟩]).fields.map
        Prod.fst = ["a", "rest"] ∧
    aget (mkVF [⟨"a", .positionalOrKeyword, none⟩, ⟨"rest", .varPositional, none⟩]).fields
        "rest" = some (some .pynone) ∧
    (akey (mkVF [⟨"a", .positionalOrKeyword, none⟩, ⟨"rest", .varPositional, none⟩]).fields
        (mkVF [⟨"a", .positionalOrKeyword, none⟩, ⟨"rest", .varPositional, none⟩]).args_field_name
      = true ↔
      hasVarPos [⟨"a", .positionalOrKeyword, none⟩, ⟨"rest", .varPositional, none⟩] = true ∧
      "args" ∈ ([⟨"a", .positionalOrKeyword, none⟩,
                 ⟨"rest", .varPositional, none⟩] : List Param).map Param.name) := by
  have h := claim_C2_amended
    [⟨"a", .positionalOrKeyword, none⟩, ⟨"rest", .varPositional, none⟩]
    (mkVF [⟨"a", .positionalOrKeyword, none⟩, ⟨"rest", .varPositional, none⟩])
    rfl (by decide)
  refine ⟨h.1, ?_, h.2.2.2.2.2.1⟩
  exact h.2.1 ⟨"rest", .varPositional, none⟩ (by simp) rfl

/-! ### C8: keyword targeting a positional-only parameter -/

theorem mkVF_ponly_fields (params : List Param) :
    ∀ k ∈ (mkVF params).positional_only_args, akey (mkVF params).fields k = true := by
  have h := loop_ponly_fields params 0 initLoopState
    (by intro k hk; simp [initLoopState] at hk)
  exact h

theorem buildKw_ponly_error (vf : ValidatedFunction)
    (hsub : ∀ k ∈ vf.positional_only_args, akey vf.fields k = true) :
    ∀ (kws values var_kwargs : List (String × Val)) (k : String) (v : Val),
      (k, v) ∈ kws → vf.positional_only_args.contains k = true →
      ∃ q, q ∈ vf.positional_only_args ∧
        buildKw vf kws values var_kwargs = .error (.posOnlyKeyword q) := by
  intro kws
  induction kws with
  | nil =>
    intro _ _ k v h _
    cases h
  | cons kv t ih =>
    intro values var_kwargs k v hmem hk
    obtain ⟨k0, v0⟩ := kv
    by_cases hf : akey vf.fields k0 = true
    · by_cases hp : vf.positional_only_args.contains k0 = true
      · refine ⟨k0, by simpa using hp, ?_⟩
        simp only [buildKw]
        rw [if_pos hf, if_pos hp]
      · have hp' : ¬ vf.positional_only_args.contains k0 = true := hp
        have ht : (k, v) ∈ t := by
          rcases List.mem_cons.mp hmem with heq | ht
          · exfalso
            have hkk : k = k0 := congrArg Prod.fst heq
            rw [hkk] at hk
            exact hp' hk
          · exact ht
        obtain ⟨q, hq, herr⟩ := ih (aset values k0 v0) var_kwargs k v ht hk
        refine ⟨q, hq, ?_⟩
        simp only [buildKw]
        rw [if_pos hf, if_neg hp']
        exact herr
    · have hk0np : ¬ vf.positional_only_args.contains k0 = true := by
        intro hcc
        exact hf (hsub k0 (by simpa using hcc))
      have ht : (k, v) ∈ t := by
        rcases List.mem_cons.mp hmem with heq | ht
        · exfalso
          have hkk : k = k0 := congrArg Prod.fst heq
          rw [hkk] at hk
          exact hk0np hk
        · exact ht
      obtain ⟨q, hq, herr⟩ := ih values (aset var_kwargs k0 v0) k v ht hk
      refine ⟨q, hq, ?_⟩
      simp only [buildKw]
      rw [if_neg hf]
      exact herr

/-- C8: if any keyword argument names a field in `positional_only_args`, the
keyword walk of `build_values` raises the distinct call-time error of line 123
(`NotImplementedError`, the unresolved positional-only-by-keyword conflict) —
not a positional or keyword binding, and not a validation error — and the
wrapped callable is never invoked (the wrapper's result is this error for
every possible wrapped callable). -/
theorem claim_C8_pos_only_keyword : ∀ (params : List Param) (pos : List Val)
    (kws : List (String × Val)) (vf : ValidatedFunction) (k : String) (v : Val),
    vfInit params = .ok vf → (k, v) ∈ kws → k ∈ vf.positional_only_args →
    ∃ q, q ∈ vf.positional_only_args ∧
      ∀ raw : Call → Except Err Val,
        wrapperRun raw params pos kws = .error (.posOnlyKeyword q) := by
  intro params pos kws vf k v hok hkv hkp
  obtain ⟨hvf, _⟩ := vfInit_ok_elim params vf hok
  subst hvf
  have hsub := mkVF_ponly_fields params
  have hcont : (mkVF params).positional_only_args.contains k = true := by simpa using hkp
  obtain ⟨q, hq, herr⟩ := buildKw_ponly_error (mkVF params) hsub kws
    ((buildPos (mkVF params) 0 pos []).1) [] k v hkv hcont
  refine ⟨q, hq, ?_⟩
  intro raw
  have hbv : build_values (mkVF params) pos kws = .error (.posOnlyKeyword q) := by
    simp [build_values, herr]
  simp [wrapperRun, vfCall, hok, hbv]

/-- C8 witness: for `f(a, /)`, calling `wrap(f)(a=2)` raises the
positional-only-by-keyword error and the wrapped callable is not invoked. -/
theorem claim_C8_witness :
    wrapperRun raw0 sigAPosOnly [] [("a", .base 2)] = .error (.posOnlyKeyword "a") := by
  obtain ⟨q, hq, hrun⟩ := claim_C8_pos_only_keyword sigAPosOnly [] [("a", .base 2)]
    (mkVF sigAPosOnly) "a" (.base 2) rfl (by simp) (by decide)
  have hponly : (mkVF sigAPosOnly).positional_only_args = ["a"] := rfl
  rw [hponly] at hq
  have hqa : q = "a" := by simpa using hq
  subst hqa
  exact hrun raw0

/-! ### All-positional-or-keyword signatures: shared machinery -/

theorem aget_idxNames : ∀ (ns : List String) (i k : Nat),
    aget (idxNames i ns) (i + k) = ns.get? k := by
  intro ns
  induction ns with
  | nil => intro i k; simp [idxNames, aget]
  | cons n t ih =>
    intro i k
    cases k with
    | zero => simp [idxNames, aget]
    | succ k2 =>
      have hne : i ≠ i + (k2 + 1) := by omega
      simp only [idxNames, aget]
      rw [if_neg hne]
      have hh := ih (i + 1) k2
      rw [show i + 1 + k2 = i + (k2 + 1) by omega] at hh
      simpa using hh

theorem aget_zip_nodup : ∀ (ns : List String) (pos : List Val), ns.Nodup →
    ∀ (j : Nat) (name : String), ns.get? j = some name →
      aget (ns.zip pos) name = pos.get? j := by
  intro ns
  induction ns with
  | nil =>
    intro pos _ j name h
    simp [List.get?] at h
  | cons n t ih =>
    intro pos hnd j name h
    rw [List.nodup_cons] at hnd
    cases pos with
    | nil => simp [aget]
    | cons a ps =>
      cases j with
      | zero =>
        rw [List.get?_cons_zero] at h
        have hn : n = name := Option.some.inj h
        subst hn
        simp [aget]
      | succ j2 =>
        rw [List.get?_cons_succ] at h
        have hmem : name ∈ t := List.get?_mem h
        have hne : n ≠ name := fun hc => hnd.1 (hc ▸ hmem)
        simp only [List.zip_cons_cons, aget]
        rw [if_neg hne]
        exact ih ps hnd.2 j2 name h

theorem map_fst_zip_take : ∀ (ns : List String) (pos : List Val),
    (ns.zip pos).map Prod.fst = ns.take pos.length := by
  intro ns
  induction ns with
  | nil => intro pos; simp
  | cons n t ih =>
    intro pos
    cases pos with
    | nil => simp
    | cons a ps => simp [ih]

theorem buildPos_idx (vf : ValidatedFunction) :
    ∀ (pos : List Val) (ns : List String) (i : Nat) (acc : List (String × Val)),
      (∀ k : Nat, aget vf.arg_mapping (i + k) = ns.get? k) →
      buildPos vf i pos acc =
        if pos.length ≤ ns.length then (aupdate acc (ns.zip pos), false)
        else (aset (aupdate acc (ns.zip pos)) vf.args_field_name
                (.vlist (pos.drop ns.length)), true) := by
  intro pos
  induction pos with
  | nil =>
    intro ns i acc _
    simp [buildPos, aupdate]
  | cons a t ih =>
    intro ns i acc h
    have h0 : aget vf.arg_mapping i = ns.get? 0 := by
      have hh := h 0
      simpa using hh
    cases ns with
    | nil =>
      rw [List.get?_nil] at h0
      simp only [buildPos, h0]
      rw [if_neg (by simp)]
      simp [aupdate]
    | cons n nt =>
      have h0' : aget vf.arg_mapping i = some n := by
        rw [h0, List.get?_cons_zero]
      simp only [buildPos, h0']
      have hstep : ∀ k : Nat, aget vf.arg_mapping (i + 1 + k) = nt.get? k := by
        intro k
        have hh := h (k + 1)
        rw [show i + (k + 1) = i + 1 + k by omega, List.get?_cons_succ] at hh
        exact hh
      rw [ih nt (i + 1) (aset acc n a) hstep]
      by_cases hl : t.length ≤ nt.length
      · rw [if_pos hl, if_pos (by simpa using Nat.succ_le_succ hl)]
        rfl
      · rw [if_neg hl, if_neg (by simp only [List.length_cons]; omega)]
        rfl

theorem buildKw_split (vf : ValidatedFunction)
    (hponly : vf.positional_only_args = []) :
    ∀ (kws values var_kwargs : List (String × Val)),
      buildKw vf kws values var_kwargs =
        .ok (aupdate values (kws.filter fun kv => akey vf.fields kv.1),
             aupdate var_kwargs (kws.filter fun kv => !akey vf.fields kv.1)) := by
  intro kws
  induction kws with
  | nil =>
    intro values var_kwargs
    simp [buildKw, aupdate]
  | cons kv t ih =>
    intro values var_kwargs
    obtain ⟨k0, v0⟩ := kv
    by_cases hf : akey vf.fields k0 = true
    · have hP : (((k0, v0) :: t).filter fun kv => akey vf.fields kv.1) =
          (k0, v0) :: t.filter fun kv => akey vf.fields kv.1 := by
        simp [List.filter_cons, hf]
      have hQ : (((k0, v0) :: t).filter fun kv => !akey vf.fields kv.1) =
          t.filter fun kv => !akey vf.fields kv.1 := by
        simp [List.filter_cons, hf]
      rw [hP, hQ]
      simp only [buildKw]
      rw [if_pos hf, if_neg (by simp [hponly])]
      rw [ih (aset values k0 v0) var_kwargs]
      rfl
    · have hf2 : akey vf.fields k0 = false := by simpa using hf
      have hP : (((k0, v0) :: t).filter fun kv => akey vf.fields kv.1) =
          t.filter fun kv => akey vf.fields kv.1 := by
        simp [List.filter_cons, hf2]
      have hQ : (((k0, v0) :: t).filter fun kv => !akey vf.fields kv.1) =
          (k0, v0) :: t.filter fun kv => !akey vf.fields kv.1 := by
        simp [List.filter_cons, hf2]
      rw [hP, hQ]
      simp only [buildKw]
      rw [if_neg hf]
      rw [ih values (aset var_kwargs k0 v0)]
      rfl

theorem posCapable_allPOK : ∀ params : List Param,
    (∀ p ∈ params, p.kind = .positionalOrKeyword) → posCapable params = params := by
  intro params
  induction params with
  | nil => intro _; rfl
  | cons p t ih =>
    intro h
    simp only [posCapable, List.filter_cons]
    rw [if_pos (by simp [isPosCapable, h p (by simp)])]
    have ht := ih fun q hq => h q (List.mem_cons_of_mem _ hq)
    simp only [posCapable] at ht
    rw [ht]

theorem kwTargetNames_allPOK : ∀ params : List Param,
    (∀ p ∈ params, p.kind = .positionalOrKeyword) →
    kwTargetNames params = params.map Param.name := by
  intro params
  induction params with
  | nil => intro _; rfl
  | cons p t ih =>
    intro h
    simp only [kwTargetNames, List.filter_cons]
    rw [if_pos (by simp [h p (by simp)])]
    have ht := ih fun q hq => h q (List.mem_cons_of_mem _ hq)
    simp only [kwTargetNames] at ht
    simp only [List.map_cons]
    rw [ht]

theorem hasVarPos_allPOK (params : List Param)
    (hk : ∀ p ∈ params, p.kind = .positionalOrKeyword) : hasVarPos params = false := by
  rw [hasVarPos, List.any_eq_false]
  intro p hp
  rw [hk p hp]
  simp

theorem hasVarKw_allPOK (params : List Param)
    (hk : ∀ p ∈ params, p.kind = .positionalOrKeyword) : hasVarKw params = false := by
  rw [hasVarKw, List.any_eq_false]
  intro p hp
  rw [hk p hp]
  simp

theorem mkVF_ponly_nil (params : List Param)
    (hk : ∀ p ∈ params, p.kind = .positionalOrKeyword) :
    (mkVF params).positional_only_args = [] := by
  rw [List.eq_nil_iff_forall_not_mem]
  intro x hx
  rw [mkVF_ponly_mem] at hx
  obtain ⟨p, hpf, hpn⟩ := List.mem_map.mp hx
  have hmem := List.mem_filter.mp hpf
  have hkind := hk p hmem.1
  have := hmem.2
  rw [hkind] at this
  simp at this

theorem mappingOf_allPOK : ∀ (ps : List Param) (i : Nat),
    (∀ p ∈ ps, p.kind = .positionalOrKeyword) →
    mappingOf i ps = idxNames i (ps.map Param.name) := by
  intro ps
  induction ps with
  | nil => intro i _; rfl
  | cons p t ih =>
    intro i h
    simp only [mappingOf, List.map_cons, idxNames]
    rw [if_pos (by simp [isPosCapable, h p (by simp)])]
    rw [ih (i + 1) fun q hq => h q (List.mem_cons_of_mem _ hq)]

theorem bindKwWalk_finds (params : List Param) (n : Nat) :
    ∀ kws : List (String × Val),
      (∀ kv ∈ kws, (kwTargetNames params).contains kv.1 = true) →
      (∃ kv, kv ∈ kws ∧ (posBoundNames params n).contains kv.1 = true) →
      ∃ k2, bindKwWalk params n kws = some (.multipleValues k2) := by
  intro kws
  induction kws with
  | nil =>
    rintro _ ⟨kv, hmem, _⟩
    cases hmem
  | cons kv0 t ih =>
    rintro htgt ⟨kv, hmem, hposb⟩
    obtain ⟨k0, v0⟩ := kv0
    have ht0 : (kwTargetNames params).contains k0 = true := htgt (k0, v0) (by simp)
    by_cases hpb : (posBoundNames params n).contains k0 = true
    · refine ⟨k0, ?_⟩
      simp only [bindKwWalk]
      rw [if_pos ht0, if_pos hpb]
    · have hmem2 : kv ∈ t := by
        rcases List.mem_cons.mp hmem with rfl | hmt
        · exact absurd hposb hpb
        · exact hmt
      obtain ⟨k2, hk2⟩ := ih (fun q hq => htgt q (List.mem_cons_of_mem _ hq)) ⟨kv, hmem2, hposb⟩
      refine ⟨k2, ?_⟩
      simp only [bindKwWalk]
      rw [if_pos ht0, if_neg hpb]
      exact hk2

/-! ### C10: a parameter supplied both positionally and by keyword -/

/-- C10: when the same declared parameter is supplied both positionally and by
keyword (for an all positional-or-keyword signature, e.g. `wrap(f)(1, a=2)`
for `f(a)`), `build_values` raises no duplicate-argument error: it succeeds,
and since the keyword walk runs after the positional walk and overwrites in
place, the keyword value wins in the values map — whereas a direct Python call
to `f` with the same arguments is a `TypeError` ("got multiple values"). -/
theorem claim_C10_duplicate : ∀ (params : List Param) (pos : List Val)
    (kws : List (String × Val)) (vf : ValidatedFunction) (i : Nat) (name : String) (v : Val),
    vfInit params = .ok vf →
    (∀ p ∈ params, p.kind = .positionalOrKeyword) →
    (params.map Param.name).Nodup →
    (kws.map Prod.fst).Nodup →
    pos.length ≤ params.length →
    aget vf.arg_mapping i = some name →
    i < pos.length →
    aget kws name = some v →
    (∀ kv ∈ kws, kv.1 ∈ params.map Param.name) →
    (∃ bv : BoundValues, build_values vf pos kws = .ok bv ∧
      aget bv.values name = some v) ∧
    (∃ k2, pythonBind params pos kws = .error (.multipleValues k2)) := by
  intro params pos kws vf i name v hok hk hnd hknd hlen hmap hi hkv hkk
  obtain ⟨hvf, hbad⟩ := vfInit_ok_elim params vf hok
  subst hvf
  have hlen2 : pos.length ≤ (params.map Param.name).length := by simpa using hlen
  have hmapping : (mkVF params).arg_mapping = idxNames 0 (params.map Param.name) := by
    rw [mkVF_arg_mapping, mappingOf_allPOK params 0 hk]
  have hprop : ∀ k : Nat,
      aget (mkVF params).arg_mapping (0 + k) = (params.map Param.name).get? k := by
    intro k
    rw [hmapping]
    exact aget_idxNames (params.map Param.name) 0 k
  have hbp := buildPos_idx (mkVF params) pos (params.map Param.name) 0 [] hprop
  rw [if_pos hlen2] at hbp
  have hzkeys : (((params.map Param.name).zip pos).map Prod.fst).Nodup := by
    rw [map_fst_zip_take]
    exact hnd.sublist (List.take_sublist _ _)
  have hvals0 : aupdate ([] : List (String × Val)) ((params.map Param.name).zip pos) =
      (params.map Param.name).zip pos := by
    rw [aupdate_fresh ((params.map Param.name).zip pos) [] (fun x _ => rfl) hzkeys]
    simp
  rw [hvals0] at hbp
  have hponly := mkVF_ponly_nil params hk
  have hfields := mkVF_fields params hnd
  have hfieldkey : ∀ kv ∈ kws, akey (mkVF params).fields kv.1 = true := by
    intro kv hkvmem
    rw [akey_iff_mem, hfields]
    have := hkk kv hkvmem
    simpa using this
  have hfilterP : (kws.filter fun kv => akey (mkVF params).fields kv.1) = kws := by
    rw [List.filter_eq_self]
    exact hfieldkey
  have hfilterQ : (kws.filter fun kv => !akey (mkVF params).fields kv.1) = [] := by
    rw [List.filter_eq_nil_iff]
    intro kv hkvmem
    simp [hfieldkey kv hkvmem]
  have hbk := buildKw_split (mkVF params) hponly kws ((params.map Param.name).zip pos) []
  rw [hfilterP, hfilterQ] at hbk
  have hbv : build_values (mkVF params) pos kws =
      .ok ⟨aupdate ((params.map Param.name).zip pos) kws, false, false⟩ := by
    simp only [build_values, hbp, hbk]
    rfl
  constructor
  · refine ⟨⟨aupdate ((params.map Param.name).zip pos) kws, false, false⟩, hbv, ?_⟩
    rw [aget_aupdate_nodup kws _ name hknd, hkv]
  · have hpc := posCapable_allPOK params hk
    have hvp : hasVarPos params = false := hasVarPos_allPOK params hk
    have hns_i : (params.map Param.name).get? i = some name := by
      have hh := hprop i
      rw [Nat.zero_add] at hh
      rw [hmap] at hh
      exact hh.symm
    have hnb : name ∈ posBoundNames params pos.length := by
      rw [posBoundNames, hpc]
      rw [List.map_take]
      have hti : ((params.map Param.name).take pos.length).get? i = some name := by
        rw [List.get?_take hi]
        exact hns_i
      exact List.get?_mem hti
    have htargets : ∀ kv ∈ kws, (kwTargetNames params).contains kv.1 = true := by
      intro kv hkvm
      rw [kwTargetNames_allPOK params hk]
      have := hkk kv hkvm
      simpa using this
    obtain ⟨k2, hwalk⟩ := bindKwWalk_finds params pos.length kws htargets
      ⟨(name, v), aget_mem kws name v hkv, by simpa using hnb⟩
    refine ⟨k2, ?_⟩
    have hcond : ¬ ((pos.length > (posCapable params).length && !hasVarPos params) = true) := by
      rw [hpc]
      have hng : ¬ pos.length > params.length := by omega
      simp [hng]
    simp only [pythonBind]
    rw [if_neg hcond, hwalk]

/-- C10 witness: for `f(a)`, `wrap(f)(1, a=2)` binds `a ↦ 2` without error,
while the direct call `f(1, a=2)` is rejected for duplicate values. -/
theorem claim_C10_witness :
    (∃ bv : BoundValues, build_values (mkVF sigA) [Val.base 1] [("a", Val.base 2)] = .ok bv ∧
      aget bv.values "a" = some (Val.base 2)) ∧
    (∃ k2, pythonBind sigA [Val.base 1] [("a", Val.base 2)] =
      .error (.multipleValues k2)) := by
  exact claim_C10_duplicate sigA [Val.base 1] [("a", Val.base 2)] (mkVF sigA) 0 "a"
    (Val.base 2) rfl (by decide) (by decide) (by decide) (by decide) rfl (by decide) rfl
    (by decide)

/-! ### C5 machinery: validation and reconstruction on plain signatures -/

theorem execute_no_var (vf : ValidatedFunction) (d : List (String × Val)) :
    execute vf d false false =
      if vf.positional_only_args.isEmpty then .ok ⟨[], d⟩
      else .ok ⟨(d.filter fun kv => vf.positional_only_args.contains kv.1).map Prod.snd,
                d.filter fun kv => !vf.positional_only_args.contains kv.1⟩ := by
  by_cases h : vf.positional_only_args.isEmpty <;> simp [execute, h]

theorem mkVF_afn_not_field (params : List Param)
    (hnd : (params.map Param.name).Nodup)
    (hbad : (params.any fun p => p.name == ALT_VAR_ARGS || p.name == ALT_VAR_KWARGS) = false)
    (hvp : hasVarPos params = false) :
    akey (mkVF params).fields (mkVF params).args_field_name = false := by
  have hfields := mkVF_fields params hnd
  have hmemk : ∀ k, akey (mkVF params).fields k = true ↔ k ∈ params.map Param.name := by
    intro k
    rw [akey_iff_mem, hfields]
    simp
  rw [List.any_eq_false] at hbad
  have hnoalt : ALT_VAR_ARGS ∉ params.map Param.name := by
    intro hmem
    obtain ⟨p, hp, hpn⟩ := List.mem_map.mp hmem
    have := hbad p hp
    simp [hpn] at this
  rw [mkVF_afn, hvp]
  by_cases hargs : akey (mkVF params).fields "args" = true
  · rw [if_pos (by simp [hargs])]
    rcases hb : akey (mkVF params).fields ALT_VAR_ARGS with _ | _
    · rfl
    · exact absurd ((hmemk _).mp hb) hnoalt
  · have hargs2 : akey (mkVF params).fields "args" = false := by simpa using hargs
    rw [if_neg (by simp [hargs2])]
    exact hargs2

theorem mkVF_kfn_not_field (params : List Param)
    (hnd : (params.map Param.name).Nodup)
    (hbad : (params.any fun p => p.name == ALT_VAR_ARGS || p.name == ALT_VAR_KWARGS) = false)
    (hvk : hasVarKw params = false) :
    akey (mkVF params).fields (mkVF params).kwargs_field_name = false := by
  have hfields := mkVF_fields params hnd
  have hmemk : ∀ k, akey (mkVF params).fields k = true ↔ k ∈ params.map Param.name := by
    intro k
    rw [akey_iff_mem, hfields]
    simp
  rw [List.any_eq_false] at hbad
  have hnoalt : ALT_VAR_KWARGS ∉ params.map Param.name := by
    intro hmem
    obtain ⟨p, hp, hpn⟩ := List.mem_map.mp hmem
    have := hbad p hp
    simp [hpn] at this
  rw [mkVF_kfn, hvk]
  by_cases hkw : akey (mkVF params).fields "kwargs" = true
  · rw [if_pos (by simp [hkw])]
    rcases hb : akey (mkVF params).fields ALT_VAR_KWARGS with _ | _
    · rfl
    · exact absurd ((hmemk _).mp hb) hnoalt
  · have hkw2 : akey (mkVF params).fields "kwargs" = false := by simpa using hkw
    rw [if_neg (by simp [hkw2])]
    exact hkw2

theorem modelValidate_extra_error (fields : List (String × Option Val))
    (values : List (String × Val)) (k : String)
    (hv : akey values k = true) (hf : akey fields k = false) :
    ∃ k2, modelValidate fields values = .error (.validationExtra k2) := by
  obtain ⟨v, hvv⟩ := Option.isSome_iff_exists.mp hv
  have hmem : (k, v) ∈ values := aget_mem values k v hvv
  cases hfind : values.find? (fun kv => !akey fields kv.1) with
  | none =>
    rw [List.find?_eq_none] at hfind
    exact absurd (hfind (k, v) hmem) (by simp [hf])
  | some kv =>
    refine ⟨kv.1, ?_⟩
    simp only [modelValidate, hfind]

theorem modelValidate_ok_elim (fields : List (String × Option Val))
    (values d : List (String × Val))
    (h : modelValidate fields values = .ok d) :
    d = fields.filterMap fun fl => (aget values fl.1).map fun v => (fl.1, v) := by
  unfold modelValidate at h
  cases h1 : values.find? (fun kv => !akey fields kv.1) with
  | some kv =>
    rw [h1] at h
    cases h
  | none =>
    rw [h1] at h
    cases h2 : fields.find? (fun fl => fl.2.isNone && !akey values fl.1) with
    | some fl =>
      rw [h2] at h
      cases h
    | none =>
      rw [h2] at h
      exact (Except.ok.inj h).symm

theorem aget_dOf : ∀ (fields : List (String × Option Val)) (values : List (String × Val))
    (k : String), (fields.map Prod.fst).Nodup →
    aget (fields.filterMap fun fl => (aget values fl.1).map fun v => (fl.1, v)) k =
      if akey fields k = true then aget values k else none := by
  intro fields
  induction fields with
  | nil =>
    intro values k _
    simp [aget, akey]
  | cons fl t ih =>
    intro values k hnd
    obtain ⟨n, dflt⟩ := fl
    rw [List.map_cons, List.nodup_cons] at hnd
    rw [List.filterMap_cons]
    cases hv : aget values n with
    | some v =>
      simp only [hv, Option.map_some']
      by_cases hkn : k = n
      · subst hkn
        simp [aget, akey, hv]
      · have hstep : aget ((n, v) ::
            (t.filterMap fun fl => (aget values fl.1).map fun v => (fl.1, v))) k =
            aget (t.filterMap fun fl => (aget values fl.1).map fun v => (fl.1, v)) k := by
          simp [aget, Ne.symm hkn]
        rw [hstep, ih values k hnd.2]
        have hak : akey ((n, dflt) :: t) k = akey t k := by
          simp [akey, aget, Ne.symm hkn]
        rw [hak]
    | none =>
      simp only [hv, Option.map_none']
      rw [ih values k hnd.2]
      by_cases hkn : k = n
      · subst hkn
        have htk : akey t k = false := by
          rcases hb : akey t k with _ | _
          · rfl
          · exact absurd ((akey_iff_mem t k).mp hb) hnd.1
        simp [htk, akey, aget, hv]
      · have hak : akey ((n, dflt) :: t) k = akey t k := by
          simp [akey, aget, Ne.symm hkn]
        rw [hak]

theorem dOf_keys (fields : List (String × Option Val)) (values : List (String × Val)) :
    ∀ kv ∈ (fields.filterMap fun fl => (aget values fl.1).map fun v => (fl.1, v)),
      kv.1 ∈ fields.map Prod.fst := by
  intro kv hkv
  rw [List.mem_filterMap] at hkv
  obtain ⟨fl, hfl, hsome⟩ := hkv
  cases hv : aget values fl.1 with
  | none =>
    rw [hv] at hsome
    cases hsome
  | some v =>
    rw [hv] at hsome
    have : (fl.1, v) = kv := Option.some.inj hsome
    rw [← this]
    exact List.mem_map_of_mem Prod.fst hfl

theorem bindKwWalk_none (params : List Param) (n : Nat) :
    ∀ kws : List (String × Val),
      (∀ kv ∈ kws, (kwTargetNames params).contains kv.1 = true ∧
        (posBoundNames params n).contains kv.1 = false) →
      bindKwWalk params n kws = none := by
  intro kws
  induction kws with
  | nil => intro _; rfl
  | cons kv0 t ih =>
    intro h
    obtain ⟨k0, v0⟩ := kv0
    obtain ⟨ht0, hp0⟩ := h (k0, v0) (by simp)
    simp only [bindKwWalk]
    rw [if_pos ht0, if_neg (by rw [hp0]; simp)]
    exact ih fun q hq => h q (List.mem_cons_of_mem _ hq)

theorem pythonBind_pos_reduce (params : List Param) (pos : List Val)
    (hk : ∀ p ∈ params, p.kind = .positionalOrKeyword)
    (hlen : pos.length ≤ params.length) :
    pythonBind params pos [] = bindResolve params pos [] params 0 := by
  have hpc := posCapable_allPOK params hk
  simp only [pythonBind]
  have hdec : decide (pos.length > (posCapable params).length) = false := by
    rw [hpc]
    exact decide_eq_false (by omega)
  rw [if_neg (by simp [hdec])]
  rfl

theorem pythonBind_kwonly_reduce (params : List Param) (kws : List (String × Val))
    (hk : ∀ p ∈ params, p.kind = .positionalOrKeyword)
    (hks : ∀ kv ∈ kws, kv.1 ∈ params.map Param.name) :
    pythonBind params [] kws = bindResolve params [] kws params 0 := by
  simp only [pythonBind]
  rw [if_neg (by simp)]
  have hwalk : bindKwWalk params 0 kws = none := by
    apply bindKwWalk_none
    intro kv hkv
    constructor
    · rw [kwTargetNames_allPOK params hk]
      have := hks kv hkv
      simpa using this
    · rfl
  simp only [List.length_nil]
  rw [hwalk]

theorem bindResolve_pos_vs_kw (allP : List Param) (pos : List Val)
    (d : List (String × Val)) :
    ∀ (ps : List Param) (j : Nat),
      (∀ p ∈ ps, p.kind = .positionalOrKeyword) →
      (∀ (k : Nat) (p : Param), ps.get? k = some p → aget d p.name = pos.get? (j + k)) →
      bindResolve allP pos [] ps j = bindResolve allP [] d ps j := by
  intro ps
  induction ps with
  | nil => intro j _ _; rfl
  | cons p t ih =>
    intro j hk hagree
    have hpk := hk p (by simp)
    have hag : aget d p.name = pos.get? j := by
      have := hagree 0 p (by rw [List.get?_cons_zero])
      rwa [Nat.add_zero] at this
    have hrec : bindResolve allP pos [] t (j + 1) = bindResolve allP [] d t (j + 1) := by
      apply ih (j + 1) (fun q hq => hk q (List.mem_cons_of_mem _ hq))
      intro k q hq
      have := hagree (k + 1) q (by rw [List.get?_cons_succ]; exact hq)
      rwa [show j + (k + 1) = j + 1 + k by omega] at this
    simp only [bindResolve, hpk]
    have hnil1 : aget ([] : List (String × Val)) p.name = none := rfl
    have hnil2 : ([] : List Val).get? j = none := rfl
    rw [hnil1, hnil2, hag]
    cases hpj : pos.get? j with
    | some a =>
      simp only [Option.orElse, hrec]
    | none =>
      cases hd : p.default with
      | some dv => simp only [Option.orElse, hrec]
      | none => simp only [Option.orElse]

theorem bindResolve_kw_agree (allP : List Param) (kws1 kws2 : List (String × Val)) :
    ∀ (ps : List Param) (j : Nat),
      (∀ p ∈ ps, p.kind = .positionalOrKeyword) →
      (∀ p ∈ ps, aget kws1 p.name = aget kws2 p.name) →
      bindResolve allP [] kws1 ps j = bindResolve allP [] kws2 ps j := by
  intro ps
  induction ps with
  | nil => intro j _ _; rfl
  | cons p t ih =>
    intro j hk hagree
    have hpk := hk p (by simp)
    have hag := hagree p (by simp)
    have hrec := ih (j + 1) (fun q hq => hk q (List.mem_cons_of_mem _ hq))
      (fun q hq => hagree q (List.mem_cons_of_mem _ hq))
    simp only [bindResolve, hpk]
    have hnil2 : ([] : List Val).get? j = none := rfl
    rw [hnil2, hag]
    cases hg : aget kws2 p.name with
    | some a => simp only [Option.orElse, hrec]
    | none =>
      cases hd : p.default with
      | some dv => simp only [Option.orElse, hrec]
      | none => simp only [Option.orElse]

theorem vfWrap_pos_bind (params : List Param) (pos : List Val) (ca : Call)
    (hk : ∀ p ∈ params, p.kind = .positionalOrKeyword)
    (hnd : (params.map Param.name).Nodup)
    (hca : vfCall params pos [] = .ok ca) :
    pythonBind params ca.args ca.kwargs = pythonBind params pos [] := by
  have hbad : (params.any fun p => p.name == ALT_VAR_ARGS || p.name == ALT_VAR_KWARGS) = false := by
    rcases hb : (params.any fun p => p.name == ALT_VAR_ARGS || p.name == ALT_VAR_KWARGS) with _ | _
    · rfl
    · exfalso
      have hini : vfInit params = .error .setupError := by rw [vfInit, if_pos hb]
      simp only [vfCall, hini] at hca
      cases hca
  have hok : vfInit params = .ok (mkVF params) := by
    rw [vfInit, if_neg (by simp [hbad])]
  have hmapping : (mkVF params).arg_mapping = idxNames 0 (params.map Param.name) := by
    rw [mkVF_arg_mapping, mappingOf_allPOK params 0 hk]
  have hprop : ∀ k : Nat,
      aget (mkVF params).arg_mapping (0 + k) = (params.map Param.name).get? k := by
    intro k
    rw [hmapping]
    exact aget_idxNames (params.map Param.name) 0 k
  have hfields := mkVF_fields params hnd
  have hfkeys : (mkVF params).fields.map Prod.fst = params.map Param.name := by
    rw [hfields]
    simp
  have hmemk : ∀ k, akey (mkVF params).fields k = true ↔ k ∈ params.map Param.name := by
    intro k
    rw [akey_iff_mem, hfkeys]
  have hponly := mkVF_ponly_nil params hk
  by_cases hlen : pos.length ≤ (params.map Param.name).length
  · have hbp := buildPos_idx (mkVF params) pos (params.map Param.name) 0 [] hprop
    rw [if_pos hlen] at hbp
    have hzkeys : (((params.map Param.name).zip pos).map Prod.fst).Nodup := by
      rw [map_fst_zip_take]
      exact hnd.sublist (List.take_sublist _ _)
    have hvals0 : aupdate ([] : List (String × Val)) ((params.map Param.name).zip pos) =
        (params.map Param.name).zip pos := by
      rw [aupdate_fresh ((params.map Param.name).zip pos) [] (fun x _ => rfl) hzkeys]
      simp
    rw [hvals0] at hbp
    have hbv : build_values (mkVF params) pos [] =
        .ok ⟨(params.map Param.name).zip pos, false, false⟩ := by
      simp only [build_values, hbp]
      rfl
    cases hmv : modelValidate (mkVF params).fields ((params.map Param.name).zip pos) with
    | error e =>
      exfalso
      have hvc : vfCall params pos [] = .error e := by
        simp only [vfCall, hok, hbv, hmv]
      rw [hvc] at hca
      cases hca
    | ok d =>
      have hd := modelValidate_ok_elim _ _ _ hmv
      have hexec : execute (mkVF params) d false false = .ok ⟨[], d⟩ := by
        rw [execute_no_var, hponly]
        rfl
      have hvc : vfCall params pos [] = .ok ⟨[], d⟩ := by
        simp only [vfCall, hok, hbv, hmv, hexec]
      rw [hvc] at hca
      have hcaeq : ca = ⟨[], d⟩ := (Except.ok.inj hca).symm
      subst hcaeq
      show pythonBind params [] d = pythonBind params pos []
      have hksd : ∀ kv ∈ d, kv.1 ∈ params.map Param.name := by
        intro kv hkv
        rw [hd] at hkv
        have hsub := dOf_keys (mkVF params).fields ((params.map Param.name).zip pos) kv hkv
        rwa [hfkeys] at hsub
      rw [pythonBind_kwonly_reduce params d hk hksd,
        pythonBind_pos_reduce params pos hk (by simpa using hlen)]
      refine (bindResolve_pos_vs_kw params pos d params 0 hk ?_).symm
      intro k p hp
      rw [Nat.zero_add]
      rw [hd, aget_dOf _ _ _ (by rw [hfkeys]; exact hnd)]
      have hpname : (params.map Param.name).get? k = some p.name := by
        rw [List.get?_map, hp]
        rfl
      have hpmem : p ∈ params := List.get?_mem hp
      rw [if_pos ((hmemk p.name).mpr (List.mem_map_of_mem Param.name hpmem))]
      exact aget_zip_nodup (params.map Param.name) pos hnd k p.name hpname
  · exfalso
    have hbp := buildPos_idx (mkVF params) pos (params.map Param.name) 0 [] hprop
    rw [if_neg hlen] at hbp
    have hbv : build_values (mkVF params) pos [] =
        .ok ⟨aset (aupdate [] ((params.map Param.name).zip pos))
              (mkVF params).args_field_name
              (.vlist (pos.drop (params.map Param.name).length)), true, false⟩ := by
      simp only [build_values, hbp]
      rfl
    have hkey : akey (aset (aupdate [] ((params.map Param.name).zip pos))
        (mkVF params).args_field_name (.vlist (pos.drop (params.map Param.name).length)))
        (mkVF params).args_field_name = true := by
      rw [akey_aset]
      simp
    have hnf := mkVF_afn_not_field params hnd hbad (hasVarPos_allPOK params hk)
    obtain ⟨k2, hmverr⟩ := modelValidate_extra_error (mkVF params).fields _ _ hkey hnf
    have hvc : vfCall params pos [] = .error (.validationExtra k2) := by
      simp only [vfCall, hok, hbv, hmverr]
    rw [hvc] at hca
    cases hca

theorem vfWrap_kw_bind (params : List Param) (kws : List (String × Val)) (cb : Call)
    (hk : ∀ p ∈ params, p.kind = .positionalOrKeyword)
    (hnd : (params.map Param.name).Nodup)
    (hknd : (kws.map Prod.fst).Nodup)
    (hcb : vfCall params [] kws = .ok cb) :
    pythonBind params cb.args cb.kwargs = pythonBind params [] kws := by
  have hbad : (params.any fun p => p.name == ALT_VAR_ARGS || p.name == ALT_VAR_KWARGS) = false := by
    rcases hb : (params.any fun p => p.name == ALT_VAR_ARGS || p.name == ALT_VAR_KWARGS) with _ | _
    · rfl
    · exfalso
      have hini : vfInit params = .error .setupError := by rw [vfInit, if_pos hb]
      simp only [vfCall, hini] at hcb
      cases hcb
  have hok : vfInit params = .ok (mkVF params) := by
    rw [vfInit, if_neg (by simp [hbad])]
  have hfields := mkVF_fields params hnd
  have hfkeys : (mkVF params).fields.map Prod.fst = params.map Param.name := by
    rw [hfields]
    simp
  have hmemk : ∀ k, akey (mkVF params).fields k = true ↔ k ∈ params.map Param.name := by
    intro k
    rw [akey_iff_mem, hfkeys]
  have hponly := mkVF_ponly_nil params hk
  have hbp0 : buildPos (mkVF params) 0 [] [] = ([], false) := rfl
  have hbk := buildKw_split (mkVF params) hponly kws [] []
  cases hQ : kws.filter (fun kv => !akey (mkVF params).fields kv.1) with
  | cons q qt =>
    exfalso
    rw [hQ] at hbk
    have hvkne : aupdate ([] : List (String × Val)) (q :: qt) ≠ [] := by
      have h1 : aupdate ([] : List (String × Val)) (q :: qt) =
          aupdate (aset [] q.1 q.2) qt := rfl
      rw [h1]
      exact aupdate_ne_nil qt _ (aset_ne_nil [] q.1 q.2)
    have hvkE : (aupdate ([] : List (String × Val)) (q :: qt)).isEmpty = false := by
      rcases hE : (aupdate ([] : List (String × Val)) (q :: qt)).isEmpty with _ | _
      · rfl
      · exact absurd (List.isEmpty_iff.mp hE) hvkne
    have hbv : build_values (mkVF params) [] kws =
        .ok ⟨aset (aupdate [] (kws.filter fun kv => akey (mkVF params).fields kv.1))
              (mkVF params).kwargs_field_name (.vdict (aupdate [] (q :: qt))), false, true⟩ := by
      simp only [build_values, hbp0, hbk, hvkE]
      rfl
    have hkey : akey (aset (aupdate [] (kws.filter fun kv => akey (mkVF params).fields kv.1))
        (mkVF params).kwargs_field_name (.vdict (aupdate [] (q :: qt))))
        (mkVF params).kwargs_field_name = true := by
      rw [akey_aset]
      simp
    have hnf := mkVF_kfn_not_field params hnd hbad (hasVarKw_allPOK params hk)
    obtain ⟨k2, hmverr⟩ := modelValidate_extra_error (mkVF params).fields _ _ hkey hnf
    have hvc : vfCall params [] kws = .error (.validationExtra k2) := by
      simp only [vfCall, hok, hbv, hmverr]
    rw [hvc] at hcb
    cases hcb
  | nil =>
    rw [hQ] at hbk
    have hfilterP : (kws.filter fun kv => akey (mkVF params).fields kv.1) = kws := by
      rw [List.filter_eq_self]
      intro kv hkv
      rcases hb : akey (mkVF params).fields kv.1 with _ | _
      · exfalso
        have hmemQ : kv ∈ kws.filter (fun kv => !akey (mkVF params).fields kv.1) :=
          List.mem_filter.mpr ⟨hkv, by simp [hb]⟩
        rw [hQ] at hmemQ
        cases hmemQ
      · rfl
    rw [hfilterP] at hbk
    have hvals : aupdate ([] : List (String × Val)) kws = kws := by
      rw [aupdate_fresh kws [] (fun x _ => rfl) hknd]
      simp
    rw [hvals] at hbk
    have hbv : build_values (mkVF params) [] kws = .ok ⟨kws, false, false⟩ := by
      simp only [build_values, hbp0, hbk]
      rfl
    cases hmv : modelValidate (mkVF params).fields kws with
    | error e =>
      exfalso
      have hvc : vfCall params [] kws = .error e := by
        simp only [vfCall, hok, hbv, hmv]
      rw [hvc] at hcb
      cases hcb
    | ok d =>
      have hd := modelValidate_ok_elim _ _ _ hmv
      have hexec : execute (mkVF params) d false false = .ok ⟨[], d⟩ := by
        rw [execute_no_var, hponly]
        rfl
      have hvc : vfCall params [] kws = .ok ⟨[], d⟩ := by
        simp only [vfCall, hok, hbv, hmv, hexec]
      rw [hvc] at hcb
      have hcbeq : cb = ⟨[], d⟩ := (Except.ok.inj hcb).symm
      subst hcbeq
      show pythonBind params [] d = pythonBind params [] kws
      have hkkeys : ∀ kv ∈ kws, kv.1 ∈ params.map Param.name := by
        intro kv hkv
        exact (hmemk kv.1).mp ((List.filter_eq_self.mp hfilterP) kv hkv)
      have hksd : ∀ kv ∈ d, kv.1 ∈ params.map Param.name := by
        intro kv hkv
        rw [hd] at hkv
        have hsub := dOf_keys (mkVF params).fields kws kv hkv
        rwa [hfkeys] at hsub
      rw [pythonBind_kwonly_reduce params d hk hksd,
        pythonBind_kwonly_reduce params kws hk hkkeys]
      apply bindResolve_kw_agree params d kws params 0 hk
      intro p hp
      rw [hd, aget_dOf _ _ _ (by rw [hfkeys]; exact hnd)]
      rw [if_pos ((hmemk p.name).mpr (List.mem_map_of_mem Param.name hp))]

/-- C5: observational equality with the original callable on plain signatures.
For a callable whose parameters are all positional-or-keyword (with distinct
names, and distinct keyword-argument names as Python dicts guarantee), any
call through the wrapper that survives binding and validation reaches the
wrapped callable with a call that Python binds to exactly the same
parameter-value assignment as the direct call: `wrap(f)(*args)` behaves as
`f(*args)` and `wrap(f)(**kwargs)` behaves as `f(**kwargs)`. -/
theorem claim_C5_observational : ∀ (params : List Param) (pos : List Val)
    (kws : List (String × Val)) (ca cb : Call),
    (∀ p ∈ params, p.kind = .positionalOrKeyword) →
    (params.map Param.name).Nodup →
    (kws.map Prod.fst).Nodup →
    (vfCall params pos [] = .ok ca →
      pythonBind params ca.args ca.kwargs = pythonBind params pos []) ∧
    (vfCall params [] kws = .ok cb →
      pythonBind params cb.args cb.kwargs = pythonBind params [] kws) := by
  intro params pos kws ca cb hk hnd hknd
  exact ⟨fun hca => vfWrap_pos_bind params pos ca hk hnd hca,
         fun hcb => vfWrap_kw_bind params kws cb hk hnd hknd hcb⟩

/-- C5 witness: for `f(a, b=7)`, the wrapper's reconstruction of
`wrap(f)(5)` binds like the direct `f(5)`, and that of
`wrap(f)(b=9, a=5)` binds like the direct `f(b=9, a=5)`. -/
theorem claim_C5_witness :
    (pythonBind [⟨"a", .positionalOrKeyword, none⟩, ⟨"b", .positionalOrKeyword, some (.base 7)⟩]
        [] [("a", .base 5)] =
      pythonBind [⟨"a", .positionalOrKeyword, none⟩, ⟨"b", .positionalOrKeyword, some (.base 7)⟩]
        [.base 5] []) ∧
    (pythonBind [⟨"a", .positionalOrKeyword, none⟩, ⟨"b", .positionalOrKeyword, some (.base 7)⟩]
        [] [("a", .base 5), ("b", .base 9)] =
      pythonBind [⟨"a", .positionalOrKeyword, none⟩, ⟨"b", .positionalOrKeyword, some (.base 7)⟩]
        [] [("b", .base 9), ("a", .base 5)]) := by
  have h := claim_C5_observational
    [⟨"a", .positionalOrKeyword, none⟩, ⟨"b", .positionalOrKeyword, some (.base 7)⟩]
    [.base 5] [("b", .base 9), ("a", .base 5)]
    ⟨[], [("a", .base 5)]⟩ ⟨[], [("a", .base 5), ("b", .base 9)]⟩
    (by decide) (by decide) (by decide)
  exact ⟨h.1 rfl, h.2 rfl⟩
